import Mathlib

/-
Shallow embedding of the span layout engine and span mutation service of the
ner-span-annotator frontend (NerSpanAnnotator.tsx, MySpanComponent.tsx, and the
SpanRenderer class).  Numbers that are JavaScript `number` values holding
integers are modelled as `Int` (span boundaries) or `Nat` (identifiers and
render slots, which the code only ever sets to 0 or `last + 1`).
`label.localeCompare` is modelled as the sign of the lexicographic comparison
of the two strings.  JavaScript `Array.prototype.sort` (stable since ES2019)
is modelled as a stable insertion sort driven by the same comparator.
-/

/-- Local editable span state: the `EditableSpan` interface of
NerSpanAnnotator.tsx (fields `start_token`, `end_token`, `label`,
`render_slot`, `span_id`, `editing`, `tempLabel`). -/
structure EditableSpan where
  start_token : Int
  end_token : Int
  label : String
  render_slot : Nat
  span_id : Nat
  editing : Bool
  tempLabel : String
deriving DecidableEq, Repr

/-- The external span value: `{start_token, end_token, label}` (the `Span`
interface of types.ts without the transient `render_slot`). -/
structure PlainSpan where
  start_token : Int
  end_token : Int
  label : String
deriving DecidableEq, Repr

/-- The `CharEntity` interface: per-character entity info. -/
structure CharEntity where
  label : String
  span_id : Nat
  is_start : Bool
  render_slot : Nat
deriving DecidableEq, Repr

/-- The `CharMarkup` interface: one character with its overlapping entities. -/
structure CharMarkup where
  ch : Char
  idx : Int
  entities : List CharEntity
deriving DecidableEq, Repr

/-- Strict lexicographic comparison of two character lists by code point. -/
def charListLt : List Char → List Char → Bool
  | [], [] => false
  | [], _ :: _ => true
  | _ :: _, [] => false
  | a :: as, b :: bs =>
    if a.toNat < b.toNat then true
    else if b.toNat < a.toNat then false
    else charListLt as bs

/-- Strict lexicographic order on strings (their character lists). -/
def labelLt (a b : String) : Bool :=
  charListLt a.data b.data

/-- The companion non-strict order: `a` not after `b`. -/
def labelLE (a b : String) : Prop :=
  labelLt b a = false

instance labelLEDec (a b : String) : Decidable (labelLE a b) :=
  inferInstanceAs (Decidable (_ = _))

/-- Sign of `a.localeCompare(b)`, modelled by the lexicographic string order
by code point (negative, zero, positive). -/
def labelCmp (a b : String) : Int :=
  if labelLt a b then -1 else if a = b then 0 else 1

/-- The comparator passed to `spans.sort` in `assemblePerCharInfo`:
`startDiff = a.start_token - b.start_token` when nonzero, else
`lenB - lenA` when the lengths differ (longer spans first), else the label
comparison.  Returns the (sign-relevant) JavaScript comparator value. -/
def spanCmp (a b : EditableSpan) : Int :=
  if a.start_token - b.start_token ≠ 0 then a.start_token - b.start_token
  else if b.end_token - b.start_token ≠ a.end_token - a.start_token then
    (b.end_token - b.start_token) - (a.end_token - a.start_token)
  else labelCmp a.label b.label

/-- Stable insertion of a span into an already sorted list: the span is placed
before the first element `y` with `spanCmp x y ≤ 0`. -/
def insertSpan (x : EditableSpan) : List EditableSpan → List EditableSpan
  | [] => [x]
  | y :: ys => if spanCmp x y ≤ 0 then x :: y :: ys else y :: insertSpan x ys

/-- Model of the stable `spans.sort(comparator)` call. -/
def sortSpans : List EditableSpan → List EditableSpan
  | [] => []
  | x :: xs => insertSpan x (sortSpans xs)

/-- `spans.forEach(s => (s.render_slot = 0))`: reset one span's slot. -/
def setSlot0 (s : EditableSpan) : EditableSpan :=
  { s with render_slot := 0 }

/-- `span.start_token <= i && i < span.end_token`: the span is open at
position `i`. -/
def spanCovers (s : EditableSpan) (i : Int) : Prop :=
  s.start_token ≤ i ∧ i < s.end_token

instance spanCoversDec (s : EditableSpan) (i : Int) : Decidable (spanCovers s i) :=
  inferInstanceAs (Decidable (s.start_token ≤ i ∧ i < s.end_token))

/-- The inner loop of `assemblePerCharInfo` at character position `i`,
updating the spans: a span opening at `i` (its `start_token` equals `i`)
receives `render_slot` one more than the slot of the last span already
intersecting `i` (`last`, 0 when none); other spans are unchanged.
`last` threads `intersectingSpans[intersectingSpans.length - 1]?.render_slot ?? 0`. -/
def scanSpansAt (i : Int) (last : Nat) : List EditableSpan → List EditableSpan
  | [] => []
  | s :: rest =>
    if spanCovers s i then
      let s' := if s.start_token = i then { s with render_slot := last + 1 } else s
      s' :: scanSpansAt i s'.render_slot rest
    else
      s :: scanSpansAt i last rest

/-- The entities pushed at position `i` by the same inner loop: one
`CharEntity` per span open at `i`, carrying the slot current after the
possible assignment. -/
def scanEntsAt (i : Int) (last : Nat) : List EditableSpan → List CharEntity
  | [] => []
  | s :: rest =>
    if spanCovers s i then
      let s' := if s.start_token = i then { s with render_slot := last + 1 } else s
      { label := s'.label, span_id := s'.span_id,
        is_start := decide (s.start_token = i),
        render_slot := s'.render_slot } :: scanEntsAt i s'.render_slot rest
    else
      scanEntsAt i last rest

/-- The outer loop of `assemblePerCharInfo` over character positions,
returning the final (mutated) span list. -/
def scanSpansAll : List Char → Int → List EditableSpan → List EditableSpan
  | [], _, l => l
  | _ :: cs, idx, l => scanSpansAll cs (idx + 1) (scanSpansAt idx 0 l)

/-- The outer loop of `assemblePerCharInfo` over character positions,
returning the per-character markup records. -/
def scanMarkup : List Char → Int → List EditableSpan → List CharMarkup
  | [], _, _ => []
  | c :: cs, idx, l =>
    { ch := c, idx := idx, entities := scanEntsAt idx 0 l } ::
      scanMarkup cs (idx + 1) (scanSpansAt idx 0 l)

/-- `assemblePerCharInfo`, span-list component: sort the spans, reset every
`render_slot` to 0, then scan all character positions; this is the state the
in-place mutating pass leaves in `componentSpans`. -/
def assembleSpans (chars : List Char) (spans : List EditableSpan) : List EditableSpan :=
  scanSpansAll chars 0 ((sortSpans spans).map setSlot0)

/-- `assemblePerCharInfo`, markup component: the returned `CharMarkup[]`. -/
def assembleMarkup (chars : List Char) (spans : List EditableSpan) : List CharMarkup :=
  scanMarkup chars 0 ((sortSpans spans).map setSlot0)

/-- The numeric layout options (`top_offset`, `span_label_offset`,
`top_offset_step` of `RendererOptions`, defaults 40 / 20 / 17). -/
structure LayoutOptions where
  top_offset : Int := 40
  span_label_offset : Int := 20
  top_offset_step : Int := 17
deriving DecidableEq, Repr

/-- `topPos = top_offset + top_offset_step * (entity.render_slot - 1)`:
vertical offset of a span slice. -/
def topPos (opts : LayoutOptions) (e : CharEntity) : Int :=
  opts.top_offset + opts.top_offset_step * ((e.render_slot : Int) - 1)

/-- `totalHeight = top_offset + span_label_offset + top_offset_step *
(sortedEntities.length - 1)`: reserved height of a rendered position (the
render uses the number of entities at the position, not their slots). -/
def totalHeight (opts : LayoutOptions) (m : CharMarkup) : Int :=
  opts.top_offset + opts.span_label_offset +
    opts.top_offset_step * ((m.entities.length : Int) - 1)

/-- Largest `render_slot` occurring in an entity list (0 when empty). -/
def maxSlot (ents : List CharEntity) : Nat :=
  ents.foldr (fun e n => max e.render_slot n) 0

/-- `/\s/.test(ch)`: whitespace test used by the word-stepping loops. -/
def isWs (c : Char) : Bool :=
  c.isWhitespace

/-- `text[i]` on a JavaScript string: the character at `i`, where an
out-of-bounds access yields `undefined`, on which the whitespace test is
false; modelled by a non-whitespace placeholder character. -/
def getCh (text : List Char) (i : Int) : Char :=
  if i < 0 then '.' else text.getD i.toNat '.'

/-- `while (i > lo && isWhitespace(text[i])) i--`, run with enough fuel
(the loop lowers `i` by one per step and stops at `lo`). -/
def skipWsLeft (text : List Char) (lo : Int) : Nat → Int → Int
  | 0, i => i
  | n + 1, i =>
    if lo < i ∧ isWs (getCh text i) then skipWsLeft text lo n (i - 1) else i

/-- `while (i > lo && !isWhitespace(text[i - 1])) i--`. -/
def skipWordLeft (text : List Char) (lo : Int) : Nat → Int → Int
  | 0, i => i
  | n + 1, i =>
    if lo < i ∧ ¬ isWs (getCh text (i - 1)) then skipWordLeft text lo n (i - 1) else i

/-- `while (i < len && isWhitespace(text[i])) i++`. -/
def skipWsRight (text : List Char) : Nat → Int → Int
  | 0, i => i
  | n + 1, i =>
    if i < (text.length : Int) ∧ isWs (getCh text i) then skipWsRight text n (i + 1) else i

/-- `while (i < len && !isWhitespace(text[i])) i++`. -/
def skipWordRight (text : List Char) : Nat → Int → Int
  | 0, i => i
  | n + 1, i =>
    if i < (text.length : Int) ∧ ¬ isWs (getCh text i) then skipWordRight text n (i + 1) else i

/-- `moveStartLeft`: move the start boundary left by one word. -/
def moveStartLeft (text : List Char) (s : EditableSpan) : Int :=
  if s.start_token ≤ 0 then s.start_token
  else
    let i0 := s.start_token - 1
    let i1 := skipWsLeft text 0 i0.toNat i0
    let i2 := skipWordLeft text 0 i1.toNat i1
    max 0 i2

/-- `moveStartRight`: move the start boundary right by one word. -/
def moveStartRight (text : List Char) (s : EditableSpan) : Int :=
  if (text.length : Int) - 1 ≤ s.start_token then s.start_token
  else
    let len : Int := text.length
    let i1 := skipWordRight text (len - s.start_token).toNat s.start_token
    let i2 := skipWsRight text (len - i1).toNat i1
    if s.end_token ≤ i2 then max 0 (s.end_token - 1) else i2

/-- `moveEndLeft`: move the end boundary left by one word. -/
def moveEndLeft (text : List Char) (s : EditableSpan) : Int :=
  if s.end_token ≤ s.start_token + 1 then s.end_token
  else
    let i0 := s.end_token - 1
    let i1 := skipWsLeft text s.start_token (i0 - s.start_token).toNat i0
    let i2 := skipWordLeft text s.start_token (i1 - s.start_token).toNat i1
    if i2 ≤ s.start_token then s.start_token + 1 else i2

/-- `moveEndRight`: move the end boundary right by one word. -/
def moveEndRight (text : List Char) (s : EditableSpan) : Int :=
  if (text.length : Int) ≤ s.end_token then s.end_token
  else
    let len : Int := text.length
    let i1 := skipWsRight text (len - s.end_token).toNat s.end_token
    let i2 := skipWordRight text (len - i1).toNat i1
    let i3 := if i2 ≤ s.start_token then s.start_token + 1 else i2
    if len < i3 then len else i3

/-- Direction argument of the boundary adjustments. -/
inductive AdjustDir where
  | left
  | right
deriving DecidableEq, Repr

/-- `adjustStart`: move one span's start boundary, then clamp so that
`start < end` (minimum width one), with a floor at 0. -/
def adjustStart (text : List Char) (span_id : Nat) (dir : AdjustDir)
    (spans : List EditableSpan) : List EditableSpan :=
  spans.map fun s =>
    if s.span_id = span_id then
      let n0 := match dir with
        | .left => moveStartLeft text s
        | .right => moveStartRight text s
      let n1 := if s.end_token ≤ n0 then max 0 (s.end_token - 1) else n0
      { s with start_token := n1 }
    else s

/-- `adjustEnd`: move one span's end boundary, then clamp so that
`start < end` (minimum width one). -/
def adjustEnd (text : List Char) (span_id : Nat) (dir : AdjustDir)
    (spans : List EditableSpan) : List EditableSpan :=
  spans.map fun s =>
    if s.span_id = span_id then
      let n0 := match dir with
        | .left => moveEndLeft text s
        | .right => moveEndRight text s
      let n1 := if n0 ≤ s.start_token then s.start_token + 1 else n0
      { s with end_token := n1 }
    else s

/-- `handleRemoveSpan`: drop the span with the given id. -/
def handleRemoveSpan (span_id : Nat) (spans : List EditableSpan) : List EditableSpan :=
  spans.filter fun s => s.span_id ≠ span_id

/-- `handleEditToggle`: flip the editing flag; when toggling off, reset the
pending label to the committed label. -/
def handleEditToggle (span_id : Nat) (spans : List EditableSpan) : List EditableSpan :=
  spans.map fun s =>
    if s.span_id = span_id then
      { s with editing := !s.editing,
               tempLabel := if s.editing then s.label else s.tempLabel }
    else s

/-- `handleApproveEdit`: commit the pending label and leave editing state. -/
def handleApproveEdit (span_id : Nat) (spans : List EditableSpan) : List EditableSpan :=
  spans.map fun s =>
    if s.span_id = span_id then { s with label := s.tempLabel, editing := false }
    else s

/-- `handleLabelChange`: overwrite the pending label (no editing-state check
in the code). -/
def handleLabelChange (span_id : Nat) (newLabel : String)
    (spans : List EditableSpan) : List EditableSpan :=
  spans.map fun s =>
    if s.span_id = span_id then { s with tempLabel := newLabel } else s

/-- The span-creating core of `handleMouseUp`: given the two selection
indices, normalize them to a half-open range, ignore the interaction when an
index is negative, the range is empty, or the range leaves the text, and
otherwise append a fresh span in editing state with the default label
(first accepted label, `"MISC"` when none). -/
def createFromSelection (len : Int) (allowed : List String)
    (startIdx endIdx : Int) (fresh : Nat)
    (spans : List EditableSpan) : List EditableSpan :=
  if startIdx < 0 ∨ endIdx < 0 then spans
  else
    let spanStart := min startIdx endIdx
    let spanEnd := max startIdx endIdx + 1
    if spanEnd ≤ spanStart ∨ len < spanEnd then spans
    else
      let defaultLbl := allowed.headD "MISC"
      spans ++ [{ start_token := spanStart, end_token := spanEnd,
                  label := defaultLbl, render_slot := 0, span_id := fresh,
                  editing := true, tempLabel := defaultLbl }]

/-- One user-driven mutation of the span set. -/
inductive Mutation where
  | remove (id : Nat)
  | editToggle (id : Nat)
  | labelChange (id : Nat) (lbl : String)
  | approve (id : Nat)
  | adjStart (id : Nat) (dir : AdjustDir)
  | adjEnd (id : Nat) (dir : AdjustDir)
  | create (startIdx endIdx : Int) (fresh : Nat)
deriving DecidableEq, Repr

/-- Dispatch one mutation to its handler. -/
def applyMutation (text : List Char) (allowed : List String) :
    Mutation → List EditableSpan → List EditableSpan
  | .remove id, spans => handleRemoveSpan id spans
  | .editToggle id, spans => handleEditToggle id spans
  | .labelChange id lbl, spans => handleLabelChange id lbl spans
  | .approve id, spans => handleApproveEdit id spans
  | .adjStart id dir, spans => adjustStart text id dir spans
  | .adjEnd id dir, spans => adjustEnd text id dir spans
  | .create a b fresh, spans => createFromSelection (text.length : Int) allowed a b fresh spans

/-- A finite sequence of mutations, applied left to right. -/
def applyMutations (text : List Char) (allowed : List String) :
    List Mutation → List EditableSpan → List EditableSpan
  | [], spans => spans
  | m :: ms, spans => applyMutations text allowed ms (applyMutation text allowed m spans)

/-- The destructuring `({span_id, editing, tempLabel, render_slot, ...rest})
=> rest` of the emission effect: keep exactly start, end and label. -/
def stripSpan (s : EditableSpan) : PlainSpan :=
  { start_token := s.start_token, end_token := s.end_token, label := s.label }

/-- `Streamlit.setComponentValue(plainSpans)`: the value sent to the host
after every change of the span state. -/
def emitValue (spans : List EditableSpan) : List PlainSpan :=
  spans.map stripSpan

/-- `toEditableSpans` of NerSpanAnnotator.tsx: keep exactly the spans whose
label is in the accepted list, and give each kept span a fresh id from the
global counter, `editing := false` and `tempLabel := label`. -/
def toEditableSpans (allowed : List String) (counter : Nat) :
    List PlainSpan → List EditableSpan
  | [] => []
  | s :: rest =>
    if allowed.contains s.label then
      { start_token := s.start_token, end_token := s.end_token, label := s.label,
        render_slot := 0, span_id := counter, editing := false,
        tempLabel := s.label } :: toEditableSpans allowed (counter + 1) rest
    else
      toEditableSpans allowed counter rest

/-- The span invariant of the spec: `0 ≤ start < end ≤ length`. -/
def ValidSpan (len : Nat) (s : EditableSpan) : Prop :=
  0 ≤ s.start_token ∧ s.start_token < s.end_token ∧ s.end_token ≤ (len : Int)

instance validSpanDec (len : Nat) (s : EditableSpan) : Decidable (ValidSpan len s) :=
  inferInstanceAs (Decidable (_ ∧ _ ∧ _))

/-- Two spans with intersecting half-open ranges `[start, end)`. -/
def Overlaps (a b : EditableSpan) : Prop :=
  a.start_token < b.end_token ∧ b.start_token < a.end_token

instance overlapsDec (a b : EditableSpan) : Decidable (Overlaps a b) :=
  inferInstanceAs (Decidable (_ ∧ _))

/-- Helper for concrete spans. -/
def mkSpan (st en : Int) (lbl : String) (id : Nat) : EditableSpan :=
  { start_token := st, end_token := en, label := lbl, render_slot := 0,
    span_id := id, editing := false, tempLabel := lbl }

/-- Four-character demo text. -/
def dChars : List Char := ['a', 'b', 'c', 'd']

/-- Demo span set whose layout shows slot 3 in use while at most two spans
are ever simultaneously open. -/
def dSpans : List EditableSpan :=
  [mkSpan 0 2 "ORG" 1, mkSpan 1 4 "PERSON" 2, mkSpan 2 4 "LOC" 3]

/-- Two spans equal on start, length and label, with descending ids. -/
def dTieHi : EditableSpan := mkSpan 0 2 "PERSON" 2

/-- Companion of `dTieHi` with the smaller id. -/
def dTieLo : EditableSpan := mkSpan 0 2 "PERSON" 1

/-- Length of a span's half-open range, as the code computes it. -/
def spanLen (s : EditableSpan) : Int :=
  s.end_token - s.start_token

/-- The three-key order the spec describes for the interval sorter:
ascending start, then descending length, then ascending label. -/
def keyLE (a b : EditableSpan) : Prop :=
  a.start_token < b.start_token ∨
    (a.start_token = b.start_token ∧
      (spanLen b < spanLen a ∨ (spanLen a = spanLen b ∧ labelLE a.label b.label)))

instance keyLEDec (a b : EditableSpan) : Decidable (keyLE a b) :=
  inferInstanceAs (Decidable (_ ∨ _))

/-- Tie rule of the claimed sort: spans equal in all three keys are ordered
by ascending id. -/
def tieLE (a b : EditableSpan) : Prop :=
  spanCmp a b = 0 → a.span_id < b.span_id

instance tieLEDec (a b : EditableSpan) : Decidable (tieLE a b) :=
  inferInstanceAs (Decidable (_ → _))

/-- Non-decreasing starts, the part of the sort order the slot scan needs. -/
def startLE (a b : EditableSpan) : Prop :=
  a.start_token ≤ b.start_token

/-- `spanCmp _ _ ≤ 0` as a relation, for reuse. -/
def rleSpan (a b : EditableSpan) : Prop :=
  spanCmp a b ≤ 0

/-- A span that is open at `i` but did not open there: its slot was assigned
at an earlier position and is frozen. -/
abbrev FrozenAt (i : Int) (s : EditableSpan) : Prop :=
  spanCovers s i ∧ s.start_token ≠ i

/-- The spans of `l` satisfying `P` carry strictly increasing render slots,
in list order. -/
abbrev SlotOrdered (P : EditableSpan → Prop) (l : List EditableSpan) : Prop :=
  l.Pairwise fun a b => P a → P b → a.render_slot < b.render_slot

/-- Every span of `l` satisfying `P` has render slot above `last`. -/
abbrev SlotAbove (P : EditableSpan → Prop) (last : Nat) (l : List EditableSpan) : Prop :=
  ∀ a ∈ l, P a → last < a.render_slot

/-- Default layout options. -/
def dOpts : LayoutOptions := {}

/-- Demo text with one space, for boundary-stepping runs. -/
def dText : List Char := "ab cd".toList

/-- Demo mutation run: widen the span by words on both sides, then create a
second span from a selection. -/
def dMuts : List Mutation :=
  [.adjEnd 1 .right, .adjStart 1 .left, .create 3 4 7]

/-- Demo single-span state over `dText`. -/
def dSpan0 : List EditableSpan := [mkSpan 0 2 "ORG" 1]

/-- A host span with an inverted range. -/
def dBadSpan : PlainSpan := { start_token := 2, end_token := 1, label := "PERSON" }

theorem char_toNat_inj {a b : Char} (h : a.toNat = b.toNat) : a = b :=
  Char.eq_of_val_eq (UInt32.eq_of_toBitVec_eq (BitVec.eq_of_toNat_eq h))

theorem charListLt_nil_cons (b : Char) (bs : List Char) :
    charListLt [] (b :: bs) = true := rfl

theorem charListLt_nil_nil : charListLt [] [] = false := rfl

theorem charListLt_cons_nil (a : Char) (as : List Char) :
    charListLt (a :: as) [] = false := rfl

theorem charListLt_cons_cons (a b : Char) (as bs : List Char) :
    charListLt (a :: as) (b :: bs) =
      if a.toNat < b.toNat then true
      else if b.toNat < a.toNat then false
      else charListLt as bs := rfl

theorem charListLt_irrefl : ∀ as : List Char, charListLt as as = false := by
  intro as
  induction as with
  | nil => rfl
  | cons a as ih =>
    rw [charListLt_cons_cons]
    simp [ih]

theorem charListLt_asymm :
    ∀ as bs : List Char, charListLt as bs = true → charListLt bs as = false := by
  intro as
  induction as with
  | nil =>
    intro bs h
    cases bs with
    | nil => exact absurd h (by simp [charListLt_nil_nil])
    | cons b bs => exact charListLt_cons_nil b bs
  | cons a as ih =>
    intro bs h
    cases bs with
    | nil => exact absurd h (by rw [charListLt_cons_nil]; simp)
    | cons b bs =>
      rw [charListLt_cons_cons] at h ⊢
      by_cases h1 : a.toNat < b.toNat
      · rw [if_neg (show ¬ b.toNat < a.toNat by omega), if_pos h1]
      · by_cases h2 : b.toNat < a.toNat
        · rw [if_neg h1, if_pos h2] at h
          exact absurd h (by simp)
        · rw [if_neg h1, if_neg h2] at h
          rw [if_neg h2, if_neg h1]
          exact ih bs h

theorem charListLt_trans :
    ∀ as bs cs : List Char, charListLt as bs = true → charListLt bs cs = true →
      charListLt as cs = true := by
  intro as
  induction as with
  | nil =>
    intro bs cs h1 h2
    cases cs with
    | nil =>
      cases bs with
      | nil => exact h1
      | cons b bs => exact absurd h2 (by rw [charListLt_cons_nil]; simp)
    | cons c cs => exact charListLt_nil_cons c cs
  | cons a as ih =>
    intro bs cs h1 h2
    cases bs with
    | nil => exact absurd h1 (by rw [charListLt_cons_nil]; simp)
    | cons b bs =>
      cases cs with
      | nil => exact absurd h2 (by rw [charListLt_cons_nil]; simp)
      | cons c cs =>
        rw [charListLt_cons_cons] at h1 h2 ⊢
        by_cases hab : a.toNat < b.toNat
        · by_cases hbc : b.toNat < c.toNat
          · rw [if_pos (show a.toNat < c.toNat by omega)]
          · by_cases hcb : c.toNat < b.toNat
            · rw [if_neg hbc, if_pos hcb] at h2
              exact absurd h2 (by simp)
            · rw [if_pos (show a.toNat < c.toNat by omega)]
        · by_cases hba : b.toNat < a.toNat
          · rw [if_neg hab, if_pos hba] at h1
            exact absurd h1 (by simp)
          · rw [if_neg hab, if_neg hba] at h1
            by_cases hbc : b.toNat < c.toNat
            · rw [if_pos (show a.toNat < c.toNat by omega)]
            · by_cases hcb : c.toNat < b.toNat
              · rw [if_neg hbc, if_pos hcb] at h2
                exact absurd h2 (by simp)
              · rw [if_neg hbc, if_neg hcb] at h2
                rw [if_neg (show ¬ a.toNat < c.toNat by omega),
                  if_neg (show ¬ c.toNat < a.toNat by omega)]
                exact ih bs cs h1 h2

theorem charListLt_eq :
    ∀ as bs : List Char, charListLt as bs = false → charListLt bs as = false →
      as = bs := by
  intro as
  induction as with
  | nil =>
    intro bs h1 _
    cases bs with
    | nil => rfl
    | cons b bs =>
      rw [charListLt_nil_cons] at h1
      exact absurd h1 (by simp)
  | cons a as ih =>
    intro bs h1 h2
    cases bs with
    | nil =>
      rw [charListLt_nil_cons] at h2
      exact absurd h2 (by simp)
    | cons b bs =>
      rw [charListLt_cons_cons] at h1 h2
      by_cases hab : a.toNat < b.toNat
      · rw [if_pos hab] at h1
        exact absurd h1 (by simp)
      · by_cases hba : b.toNat < a.toNat
        · rw [if_pos hba] at h2
          exact absurd h2 (by simp)
        · rw [if_neg hab, if_neg hba] at h1
          rw [if_neg hba, if_neg hab] at h2
          have heq : a = b := char_toNat_inj (by omega)
          rw [heq, ih bs h1 h2]

theorem string_data_inj {a b : String} (h : a.data = b.data) : a = b := by
  cases a
  cases b
  exact congrArg String.mk h

theorem labelLt_irrefl (a : String) : labelLt a a = false :=
  charListLt_irrefl a.data

theorem labelLt_asymm {a b : String} (h : labelLt a b = true) : labelLt b a = false :=
  charListLt_asymm a.data b.data h

theorem labelLt_ne {a b : String} (h : labelLt a b = true) : a ≠ b := by
  intro heq
  subst heq
  rw [labelLt_irrefl a] at h
  exact absurd h (by simp)

theorem labelLt_eq {a b : String} (h1 : labelLt a b = false)
    (h2 : labelLt b a = false) : a = b :=
  string_data_inj (charListLt_eq a.data b.data h1 h2)

theorem labelLE_trans {a b c : String} (h1 : labelLE a b) (h2 : labelLE b c) :
    labelLE a c := by
  unfold labelLE at h1 h2 ⊢
  cases hca : labelLt c a with
  | false => rfl
  | true =>
    exfalso
    cases hab : labelLt a b with
    | true =>
      cases hbc : labelLt b c with
      | true =>
        have hac := charListLt_trans a.data b.data c.data hab hbc
        have hfalse := labelLt_asymm hac
        rw [hfalse] at hca
        exact Bool.false_ne_true hca
      | false =>
        have hcb : b = c := labelLt_eq hbc h2
        subst hcb
        have hfalse := labelLt_asymm hab
        rw [hfalse] at hca
        exact Bool.false_ne_true hca
    | false =>
      have hba : a = b := labelLt_eq hab h1
      subst hba
      cases hac : labelLt a c with
      | true =>
        have hfalse := labelLt_asymm hac
        rw [hfalse] at hca
        exact Bool.false_ne_true hca
      | false =>
        have heq : a = c := labelLt_eq hac h2
        subst heq
        rw [labelLt_irrefl a] at hca
        exact Bool.false_ne_true hca

theorem labelCmp_nonpos_iff (a b : String) : labelCmp a b ≤ 0 ↔ labelLE a b := by
  unfold labelCmp labelLE
  cases hab : labelLt a b with
  | true =>
    simp only [if_pos rfl]
    simp [labelLt_asymm hab]
  | false =>
    simp only [Bool.false_eq_true, if_false]
    by_cases heq : a = b
    · subst heq
      simp [labelLt_irrefl a]
    · rw [if_neg heq]
      constructor
      · intro h
        omega
      · intro hba
        exact absurd (labelLt_eq hab hba) heq

theorem labelCmp_eq_zero_iff (a b : String) : labelCmp a b = 0 ↔ a = b := by
  unfold labelCmp
  cases hab : labelLt a b with
  | true =>
    simp only [if_pos rfl]
    simp [labelLt_ne hab]
  | false =>
    simp only [Bool.false_eq_true, if_false]
    by_cases heq : a = b
    · simp [heq]
    · rw [if_neg heq]
      simp [heq]

theorem spanCmp_nonpos_iff (a b : EditableSpan) : spanCmp a b ≤ 0 ↔ keyLE a b := by
  unfold spanCmp keyLE spanLen
  by_cases h1 : a.start_token - b.start_token ≠ 0
  · rw [if_pos h1]
    constructor
    · intro h
      exact Or.inl (by omega)
    · rintro (h | ⟨h, _⟩) <;> omega
  · rw [if_neg h1]
    by_cases h2 : b.end_token - b.start_token ≠ a.end_token - a.start_token
    · rw [if_pos h2]
      constructor
      · intro h
        exact Or.inr ⟨by omega, Or.inl (by omega)⟩
      · rintro (h | ⟨h, h' | ⟨h', _⟩⟩) <;> omega
    · rw [if_neg h2]
      rw [labelCmp_nonpos_iff]
      constructor
      · intro h
        exact Or.inr ⟨by omega, Or.inr ⟨by omega, h⟩⟩
      · rintro (h | ⟨h, h' | ⟨h', hl⟩⟩)
        · omega
        · omega
        · exact hl

theorem spanCmp_eq_zero_iff (a b : EditableSpan) :
    spanCmp a b = 0 ↔
      a.start_token = b.start_token ∧ spanLen a = spanLen b ∧ a.label = b.label := by
  unfold spanCmp spanLen
  by_cases h1 : a.start_token - b.start_token ≠ 0
  · rw [if_pos h1]
    constructor
    · intro h
      omega
    · rintro ⟨h, _⟩
      omega
  · rw [if_neg h1]
    by_cases h2 : b.end_token - b.start_token ≠ a.end_token - a.start_token
    · rw [if_pos h2]
      constructor
      · intro h
        omega
      · rintro ⟨_, h, _⟩
        omega
    · rw [if_neg h2]
      rw [labelCmp_eq_zero_iff]
      constructor
      · intro h
        exact ⟨by omega, by omega, h⟩
      · rintro ⟨_, _, h⟩
        exact h

theorem labelCmp_antisym (a b : String) : labelCmp b a = -labelCmp a b := by
  unfold labelCmp
  cases hab : labelLt a b with
  | true =>
    rw [labelLt_asymm hab]
    simp [Ne.symm (labelLt_ne hab)]
  | false =>
    cases hba : labelLt b a with
    | true =>
      simp [labelLt_ne hba, Ne.symm (labelLt_ne hba)]
    | false =>
      have heq : a = b := labelLt_eq hab hba
      subst heq
      simp

theorem spanCmp_antisym (a b : EditableSpan) : spanCmp b a = -spanCmp a b := by
  unfold spanCmp
  split_ifs <;>
    first
      | omega
      | rw [labelCmp_antisym a.label b.label]

theorem spanCmp_pos_of_not_nonpos {a b : EditableSpan} (h : ¬ spanCmp a b ≤ 0) :
    spanCmp b a < 0 := by
  have := spanCmp_antisym a b
  omega

theorem keyLE_total (a b : EditableSpan) : keyLE a b ∨ keyLE b a := by
  by_cases h : spanCmp a b ≤ 0
  · exact Or.inl ((spanCmp_nonpos_iff a b).mp h)
  · exact Or.inr ((spanCmp_nonpos_iff b a).mp (le_of_lt (spanCmp_pos_of_not_nonpos h)))

theorem keyLE_trans {a b c : EditableSpan} (h1 : keyLE a b) (h2 : keyLE b c) :
    keyLE a c := by
  unfold keyLE spanLen at h1 h2 ⊢
  rcases h1 with h1 | ⟨h1s, h1r⟩
  · rcases h2 with h2 | ⟨h2s, _⟩
    · exact Or.inl (lt_trans h1 h2)
    · exact Or.inl (by omega)
  · rcases h2 with h2 | ⟨h2s, h2r⟩
    · exact Or.inl (by omega)
    · refine Or.inr ⟨by omega, ?_⟩
      rcases h1r with h1r | ⟨h1l, h1lab⟩
      · rcases h2r with h2r | ⟨h2l, _⟩
        · exact Or.inl (by omega)
        · exact Or.inl (by omega)
      · rcases h2r with h2r | ⟨h2l, h2lab⟩
        · exact Or.inl (by omega)
        · exact Or.inr ⟨by omega, labelLE_trans h1lab h2lab⟩

theorem rleSpan_trans {a b c : EditableSpan} (h1 : rleSpan a b) (h2 : rleSpan b c) :
    rleSpan a c := by
  rw [rleSpan, spanCmp_nonpos_iff] at h1 h2 ⊢
  exact keyLE_trans h1 h2

theorem rleSpan_of_not {a b : EditableSpan} (h : ¬ rleSpan a b) : rleSpan b a :=
  le_of_lt (spanCmp_pos_of_not_nonpos h)

theorem mem_insertSpan {z x : EditableSpan} :
    ∀ {l : List EditableSpan}, z ∈ insertSpan x l ↔ z = x ∨ z ∈ l := by
  intro l
  induction l with
  | nil => simp [insertSpan]
  | cons y ys ih =>
    by_cases h : spanCmp x y ≤ 0
    · simp [insertSpan, h]
    · simp only [insertSpan, if_neg h, List.mem_cons, ih]
      tauto

theorem insertSpan_perm (x : EditableSpan) :
    ∀ l : List EditableSpan, (insertSpan x l).Perm (x :: l) := by
  intro l
  induction l with
  | nil => simp [insertSpan]
  | cons y ys ih =>
    by_cases h : spanCmp x y ≤ 0
    · simp [insertSpan, h]
    · rw [insertSpan, if_neg h]
      exact (ih.cons y).trans (List.Perm.swap x y ys)

theorem sortSpans_perm : ∀ l : List EditableSpan, (sortSpans l).Perm l := by
  intro l
  induction l with
  | nil => exact List.Perm.refl _
  | cons x xs ih =>
    rw [sortSpans]
    exact (insertSpan_perm x (sortSpans xs)).trans (ih.cons x)

theorem pairwise_insertSpan {x : EditableSpan} :
    ∀ {l : List EditableSpan}, l.Pairwise rleSpan →
      (insertSpan x l).Pairwise rleSpan := by
  intro l
  induction l with
  | nil =>
    intro _
    simp [insertSpan]
  | cons y ys ih =>
    intro hp
    rcases List.pairwise_cons.mp hp with ⟨hy, hys⟩
    by_cases h : spanCmp x y ≤ 0
    · rw [insertSpan, if_pos h]
      refine List.pairwise_cons.mpr ⟨?_, hp⟩
      intro z hz
      rcases List.mem_cons.mp hz with rfl | hz
      · exact h
      · exact rleSpan_trans h (hy z hz)
    · rw [insertSpan, if_neg h]
      refine List.pairwise_cons.mpr ⟨?_, ih hys⟩
      intro z hz
      rcases mem_insertSpan.mp hz with rfl | hz
      · exact rleSpan_of_not h
      · exact hy z hz

theorem sortSpans_pairwise : ∀ l : List EditableSpan, (sortSpans l).Pairwise rleSpan := by
  intro l
  induction l with
  | nil => simp [sortSpans]
  | cons x xs ih =>
    rw [sortSpans]
    exact pairwise_insertSpan ih

theorem sortSpans_eq_of_pairwise :
    ∀ {l : List EditableSpan}, l.Pairwise rleSpan → sortSpans l = l := by
  intro l
  induction l with
  | nil => intro _; rfl
  | cons x xs ih =>
    intro hp
    rcases List.pairwise_cons.mp hp with ⟨hx, hxs⟩
    rw [sortSpans, ih hxs]
    cases xs with
    | nil => rfl
    | cons y ys =>
      have h : spanCmp x y ≤ 0 := hx y (List.mem_cons_self y ys)
      rw [insertSpan, if_pos h]

theorem pairwise_insertSpan_of_rel {R : EditableSpan → EditableSpan → Prop}
    (hvac : ∀ u v : EditableSpan, ¬ spanCmp u v ≤ 0 → R v u) {x : EditableSpan} :
    ∀ {l : List EditableSpan}, l.Pairwise R → (∀ y ∈ l, R x y) →
      (insertSpan x l).Pairwise R := by
  intro l
  induction l with
  | nil =>
    intro _ _
    simp [insertSpan]
  | cons y ys ih =>
    intro hp hx
    rcases List.pairwise_cons.mp hp with ⟨hy, hys⟩
    by_cases h : spanCmp x y ≤ 0
    · rw [insertSpan, if_pos h]
      refine List.pairwise_cons.mpr ⟨?_, hp⟩
      intro z hz
      exact hx z hz
    · rw [insertSpan, if_neg h]
      refine List.pairwise_cons.mpr ⟨?_, ih hys fun z hz => hx z (List.mem_cons_of_mem y hz)⟩
      intro z hz
      rcases mem_insertSpan.mp hz with rfl | hz
      · exact hvac z y h
      · exact hy z hz

theorem sortSpans_pairwise_of_rel {R : EditableSpan → EditableSpan → Prop}
    (hvac : ∀ u v : EditableSpan, ¬ spanCmp u v ≤ 0 → R v u) :
    ∀ {l : List EditableSpan}, l.Pairwise R → (sortSpans l).Pairwise R := by
  intro l
  induction l with
  | nil => intro _; simp [sortSpans]
  | cons x xs ih =>
    intro hp
    rcases List.pairwise_cons.mp hp with ⟨hx, hxs⟩
    rw [sortSpans]
    refine pairwise_insertSpan_of_rel hvac (ih hxs) ?_
    intro y hy
    exact hx y ((sortSpans_perm xs).mem_iff.mp hy)

theorem scanSpansAt_nil (i : Int) (last : Nat) : scanSpansAt i last [] = [] := rfl

theorem scanSpansAt_cons_open {s : EditableSpan} {i : Int} (last : Nat)
    (rest : List EditableSpan) (hc : spanCovers s i) (hs : s.start_token = i) :
    scanSpansAt i last (s :: rest) =
      { s with render_slot := last + 1 } :: scanSpansAt i (last + 1) rest := by
  simp [scanSpansAt, hc, hs]

theorem scanSpansAt_cons_frozen {s : EditableSpan} {i : Int} (last : Nat)
    (rest : List EditableSpan) (hc : spanCovers s i) (hs : s.start_token ≠ i) :
    scanSpansAt i last (s :: rest) = s :: scanSpansAt i s.render_slot rest := by
  simp [scanSpansAt, hc, hs]

theorem scanSpansAt_cons_out {s : EditableSpan} {i : Int} (last : Nat)
    (rest : List EditableSpan) (hc : ¬ spanCovers s i) :
    scanSpansAt i last (s :: rest) = s :: scanSpansAt i last rest := by
  simp [scanSpansAt, hc]

theorem scanEntsAt_nil (i : Int) (last : Nat) : scanEntsAt i last [] = [] := rfl

theorem scanEntsAt_cons_open {s : EditableSpan} {i : Int} (last : Nat)
    (rest : List EditableSpan) (hc : spanCovers s i) (hs : s.start_token = i) :
    scanEntsAt i last (s :: rest) =
      { label := s.label, span_id := s.span_id, is_start := true,
        render_slot := last + 1 } :: scanEntsAt i (last + 1) rest := by
  simp [scanEntsAt, hc, hs]

theorem scanEntsAt_cons_frozen {s : EditableSpan} {i : Int} (last : Nat)
    (rest : List EditableSpan) (hc : spanCovers s i) (hs : s.start_token ≠ i) :
    scanEntsAt i last (s :: rest) =
      { label := s.label, span_id := s.span_id, is_start := false,
        render_slot := s.render_slot } :: scanEntsAt i s.render_slot rest := by
  simp [scanEntsAt, hc, hs]

theorem scanEntsAt_cons_out {s : EditableSpan} {i : Int} (last : Nat)
    (rest : List EditableSpan) (hc : ¬ spanCovers s i) :
    scanEntsAt i last (s :: rest) = scanEntsAt i last rest := by
  simp [scanEntsAt, hc]

theorem scanSpansAt_map_setSlot0 (i : Int) :
    ∀ (l : List EditableSpan) (last : Nat),
      (scanSpansAt i last l).map setSlot0 = l.map setSlot0 := by
  intro l
  induction l with
  | nil => intro last; rfl
  | cons s rest ih =>
    intro last
    by_cases hc : spanCovers s i
    · by_cases hs : s.start_token = i
      · rw [scanSpansAt_cons_open last rest hc hs]
        simp only [List.map_cons, ih]
        rfl
      · rw [scanSpansAt_cons_frozen last rest hc hs]
        simp only [List.map_cons, ih]
    · rw [scanSpansAt_cons_out last rest hc]
      simp only [List.map_cons, ih]

theorem scanSpansAt_length (i : Int) (last : Nat) (l : List EditableSpan) :
    (scanSpansAt i last l).length = l.length := by
  have h := congrArg List.length (scanSpansAt_map_setSlot0 i l last)
  simpa using h

theorem get_eq_of_list_eq {α : Type} :
    ∀ {X Y : List α}, X = Y →
      ∀ (k : Nat) (hX : k < X.length) (hY : k < Y.length),
        X.get ⟨k, hX⟩ = Y.get ⟨k, hY⟩ := by
  intro X Y h
  subst h
  intro k h1 h2
  rfl

theorem map_get_eq {α β : Type} (f : α → β) :
    ∀ (l : List α) (k : Nat) (h : k < l.length) (h2 : k < (l.map f).length),
      (l.map f).get ⟨k, h2⟩ = f (l.get ⟨k, h⟩) := by
  intro l
  induction l with
  | nil =>
    intro k h _
    exact absurd h (by simp)
  | cons x xs ih =>
    intro k h h2
    cases k with
    | zero => rfl
    | succ n => exact ih n (Nat.lt_of_succ_lt_succ h) (Nat.lt_of_succ_lt_succ h2)

theorem get_shape_of_map_setSlot0 {f l : List EditableSpan}
    (h : f.map setSlot0 = l.map setSlot0) (k : Nat)
    (hf : k < f.length) (hl : k < l.length) :
    setSlot0 (f.get ⟨k, hf⟩) = setSlot0 (l.get ⟨k, hl⟩) := by
  have h1 := map_get_eq setSlot0 f k hf (by simpa using hf)
  have h2 := map_get_eq setSlot0 l k hl (by simpa using hl)
  rw [← h1, ← h2]
  exact get_eq_of_list_eq h k (by simpa using hf) (by simpa using hl)

theorem start_of_shape {a b : EditableSpan} (h : setSlot0 a = setSlot0 b) :
    a.start_token = b.start_token := by
  have h2 := congrArg EditableSpan.start_token h
  exact h2

theorem end_of_shape {a b : EditableSpan} (h : setSlot0 a = setSlot0 b) :
    a.end_token = b.end_token := by
  have h2 := congrArg EditableSpan.end_token h
  exact h2

theorem covers_of_shape {a b : EditableSpan} (h : setSlot0 a = setSlot0 b) (i : Int) :
    spanCovers a i ↔ spanCovers b i := by
  unfold spanCovers
  rw [start_of_shape h, end_of_shape h]

theorem pairwise_of_map_setSlot0 {R : EditableSpan → EditableSpan → Prop}
    {f l : List EditableSpan} (h : f.map setSlot0 = l.map setSlot0)
    (hR : ∀ u v : EditableSpan, R u v ↔ R (setSlot0 u) (setSlot0 v))
    (hp : l.Pairwise R) : f.Pairwise R := by
  have h1 : (l.map setSlot0).Pairwise R :=
    List.pairwise_map.mpr (hp.imp fun hab => (hR _ _).mp hab)
  rw [← h] at h1
  have h2 := List.pairwise_map.mp h1
  exact h2.imp fun hab => (hR _ _).mpr hab

theorem shape_getElem? {f l : List EditableSpan}
    (h : f.map setSlot0 = l.map setSlot0) (k : Nat) :
    f[k]?.map setSlot0 = l[k]?.map setSlot0 := by
  have h1 := List.getElem?_map setSlot0 f k
  have h2 := List.getElem?_map setSlot0 l k
  rw [← h1, ← h2, h]

theorem scanSpansAt_getElem?_stable {i : Int} :
    ∀ (l : List EditableSpan) (last k : Nat) (s : EditableSpan),
      l[k]? = some s → s.start_token ≠ i →
        (scanSpansAt i last l)[k]? = some s := by
  intro l
  induction l with
  | nil =>
    intro last k s hk
    simp at hk
  | cons x rest ih =>
    intro last k s hk hne
    by_cases hc : spanCovers x i
    · by_cases hs : x.start_token = i
      · rw [scanSpansAt_cons_open last rest hc hs]
        cases k with
        | zero =>
          simp only [List.getElem?_cons_zero, Option.some.injEq] at hk
          subst hk
          exact absurd hs hne
        | succ n =>
          simp only [List.getElem?_cons_succ] at hk ⊢
          exact ih (last + 1) n s hk hne
      · rw [scanSpansAt_cons_frozen last rest hc hs]
        cases k with
        | zero =>
          simp only [List.getElem?_cons_zero, Option.some.injEq] at hk
          subst hk
          exact List.getElem?_cons_zero
        | succ n =>
          simp only [List.getElem?_cons_succ] at hk ⊢
          exact ih x.render_slot n s hk hne
    · rw [scanSpansAt_cons_out last rest hc]
      cases k with
      | zero =>
        simp only [List.getElem?_cons_zero, Option.some.injEq] at hk
        subst hk
        exact List.getElem?_cons_zero
      | succ n =>
        simp only [List.getElem?_cons_succ] at hk ⊢
        exact ih last n s hk hne

theorem scanSpansAt_post (i : Int) :
    ∀ (l : List EditableSpan) (last : Nat),
      l.Pairwise startLE →
      SlotOrdered (FrozenAt i) l →
      SlotAbove (FrozenAt i) last l →
      SlotOrdered (fun s => spanCovers s i) (scanSpansAt i last l) ∧
        SlotAbove (fun s => spanCovers s i) last (scanSpansAt i last l) := by
  intro l
  induction l with
  | nil =>
    intro last _ _ _
    exact ⟨List.Pairwise.nil, fun a ha => absurd ha (List.not_mem_nil a)⟩
  | cons s rest ih =>
    intro last hsort hord habove
    have hsortR : rest.Pairwise startLE := (List.pairwise_cons.mp hsort).2
    have hsortH : ∀ y ∈ rest, startLE s y := (List.pairwise_cons.mp hsort).1
    have hordR : SlotOrdered (FrozenAt i) rest := (List.pairwise_cons.mp hord).2
    have hordH : ∀ y ∈ rest, FrozenAt i s → FrozenAt i y →
        s.render_slot < y.render_slot := (List.pairwise_cons.mp hord).1
    by_cases hc : spanCovers s i
    · by_cases hs : s.start_token = i
      · rw [scanSpansAt_cons_open last rest hc hs]
        have hnofrozen : ∀ y ∈ rest, ¬ FrozenAt i y := by
          intro y hy hF
          have h1 : s.start_token ≤ y.start_token := hsortH y hy
          have h2 : y.start_token ≤ i := hF.1.1
          have h3 : y.start_token ≠ i := hF.2
          omega
        have haboveR : SlotAbove (FrozenAt i) (last + 1) rest := fun a ha hF =>
          absurd hF (hnofrozen a ha)
        obtain ⟨ihOrd, ihAbove⟩ := ih (last + 1) hsortR hordR haboveR
        constructor
        · refine List.pairwise_cons.mpr ⟨?_, ihOrd⟩
          intro y hy _ hcy
          exact ihAbove y hy hcy
        · intro a ha hcov
          rcases List.mem_cons.mp ha with rfl | ha
          · exact Nat.lt_succ_self last
          · have := ihAbove a ha hcov
            omega
      · rw [scanSpansAt_cons_frozen last rest hc hs]
        have hF : FrozenAt i s := ⟨hc, hs⟩
        have hlast : last < s.render_slot := habove s (List.mem_cons_self s rest) hF
        have haboveR : SlotAbove (FrozenAt i) s.render_slot rest := fun a ha hFa =>
          hordH a ha hF hFa
        obtain ⟨ihOrd, ihAbove⟩ := ih s.render_slot hsortR hordR haboveR
        constructor
        · refine List.pairwise_cons.mpr ⟨?_, ihOrd⟩
          intro y hy _ hcy
          exact ihAbove y hy hcy
        · intro a ha hcov
          rcases List.mem_cons.mp ha with rfl | ha
          · exact hlast
          · exact lt_trans hlast (ihAbove a ha hcov)
    · rw [scanSpansAt_cons_out last rest hc]
      have haboveR : SlotAbove (FrozenAt i) last rest := fun a ha hFa =>
        habove a (List.mem_cons_of_mem s ha) hFa
      obtain ⟨ihOrd, ihAbove⟩ := ih last hsortR hordR haboveR
      constructor
      · refine List.pairwise_cons.mpr ⟨?_, ihOrd⟩
        intro y hy hcs _
        exact absurd hcs hc
      · intro a ha hcov
        rcases List.mem_cons.mp ha with rfl | ha
        · exact absurd hcov hc
        · exact ihAbove a ha hcov

theorem scanEntsAt_post (i : Int) :
    ∀ (l : List EditableSpan) (last : Nat),
      l.Pairwise startLE →
      SlotOrdered (FrozenAt i) l →
      SlotAbove (FrozenAt i) last l →
      (scanEntsAt i last l).Pairwise
          (fun e f => e.render_slot < f.render_slot) ∧
        ∀ e ∈ scanEntsAt i last l, last < e.render_slot := by
  intro l
  induction l with
  | nil =>
    intro last _ _ _
    exact ⟨List.Pairwise.nil, fun a ha => absurd ha (List.not_mem_nil a)⟩
  | cons s rest ih =>
    intro last hsort hord habove
    have hsortR : rest.Pairwise startLE := (List.pairwise_cons.mp hsort).2
    have hsortH : ∀ y ∈ rest, startLE s y := (List.pairwise_cons.mp hsort).1
    have hordR : SlotOrdered (FrozenAt i) rest := (List.pairwise_cons.mp hord).2
    have hordH : ∀ y ∈ rest, FrozenAt i s → FrozenAt i y →
        s.render_slot < y.render_slot := (List.pairwise_cons.mp hord).1
    by_cases hc : spanCovers s i
    · by_cases hs : s.start_token = i
      · rw [scanEntsAt_cons_open last rest hc hs]
        have hnofrozen : ∀ y ∈ rest, ¬ FrozenAt i y := by
          intro y hy hF
          have h1 : s.start_token ≤ y.start_token := hsortH y hy
          have h2 : y.start_token ≤ i := hF.1.1
          have h3 : y.start_token ≠ i := hF.2
          omega
        have haboveR : SlotAbove (FrozenAt i) (last + 1) rest := fun a ha hF =>
          absurd hF (hnofrozen a ha)
        obtain ⟨ihOrd, ihAbove⟩ := ih (last + 1) hsortR hordR haboveR
        constructor
        · refine List.pairwise_cons.mpr ⟨?_, ihOrd⟩
          intro e he
          exact ihAbove e he
        · intro e he
          rcases List.mem_cons.mp he with rfl | he
          · exact Nat.lt_succ_self last
          · have := ihAbove e he
            omega
      · rw [scanEntsAt_cons_frozen last rest hc hs]
        have hF : FrozenAt i s := ⟨hc, hs⟩
        have hlast : last < s.render_slot := habove s (List.mem_cons_self s rest) hF
        have haboveR : SlotAbove (FrozenAt i) s.render_slot rest := fun a ha hFa =>
          hordH a ha hF hFa
        obtain ⟨ihOrd, ihAbove⟩ := ih s.render_slot hsortR hordR haboveR
        constructor
        · refine List.pairwise_cons.mpr ⟨?_, ihOrd⟩
          intro e he
          exact ihAbove e he
        · intro e he
          rcases List.mem_cons.mp he with rfl | he
          · exact hlast
          · exact lt_trans hlast (ihAbove e he)
    · rw [scanEntsAt_cons_out last rest hc]
      have haboveR : SlotAbove (FrozenAt i) last rest := fun a ha hFa =>
        habove a (List.mem_cons_of_mem s ha) hFa
      exact ih last hsortR hordR haboveR

theorem pre_next {i : Int} {l : List EditableSpan}
    (hord : SlotOrdered (fun s => spanCovers s i) l)
    (habove : SlotAbove (fun s => spanCovers s i) 0 l) :
    SlotOrdered (FrozenAt (i + 1)) l ∧ SlotAbove (FrozenAt (i + 1)) 0 l := by
  have hcov : ∀ s : EditableSpan, FrozenAt (i + 1) s → spanCovers s i := by
    intro s hF
    rcases hF with ⟨⟨h1, h2⟩, h3⟩
    exact ⟨by omega, by omega⟩
  constructor
  · exact hord.imp fun hab hFa hFb => hab (hcov _ hFa) (hcov _ hFb)
  · intro a ha hFa
    exact habove a ha (hcov a hFa)

theorem scanSpansAll_map_setSlot0 :
    ∀ (cs : List Char) (idx : Int) (l : List EditableSpan),
      (scanSpansAll cs idx l).map setSlot0 = l.map setSlot0 := by
  intro cs
  induction cs with
  | nil => intro idx l; rfl
  | cons c cs ih =>
    intro idx l
    rw [scanSpansAll, ih, scanSpansAt_map_setSlot0]

theorem scanSpansAll_getElem?_stable :
    ∀ (cs : List Char) (idx : Int) (l : List EditableSpan) (k : Nat) (s : EditableSpan),
      l[k]? = some s → s.start_token < idx →
        (scanSpansAll cs idx l)[k]? = some s := by
  intro cs
  induction cs with
  | nil =>
    intro idx l k s hk _
    exact hk
  | cons c cs ih =>
    intro idx l k s hk hlt
    rw [scanSpansAll]
    have h1 : (scanSpansAt idx 0 l)[k]? = some s :=
      scanSpansAt_getElem?_stable l 0 k s hk (by omega)
    exact ih (idx + 1) _ k s h1 (by omega)

theorem scanSpansAll_getElem?_back (cs : List Char) (idx : Int)
    (l : List EditableSpan) (j : Nat) (a : EditableSpan)
    (hja : (scanSpansAll cs idx l)[j]? = some a)
    (hstart : a.start_token < idx) :
    l[j]? = some a := by
  have hsh := shape_getElem? (scanSpansAll_map_setSlot0 cs idx l) j
  rw [hja] at hsh
  cases hoj : l[j]? with
  | none =>
    rw [hoj] at hsh
    simp at hsh
  | some b =>
    rw [hoj] at hsh
    simp only [Option.map_some'] at hsh
    have hab : setSlot0 a = setSlot0 b := by
      injection hsh
    have hbstart : b.start_token < idx := by
      rw [← start_of_shape hab]
      exact hstart
    have h2 := scanSpansAll_getElem?_stable cs idx l j b hoj hbstart
    rw [hja] at h2
    have hba : a = b := by injection h2
    exact congrArg some hba.symm

theorem scanSpansAll_sep :
    ∀ (cs : List Char) (idx : Int) (l : List EditableSpan),
      l.Pairwise startLE →
      SlotOrdered (FrozenAt idx) l →
      SlotAbove (FrozenAt idx) 0 l →
      ∀ (j k : Nat) (a b : EditableSpan), j < k →
        (scanSpansAll cs idx l)[j]? = some a →
        (scanSpansAll cs idx l)[k]? = some b →
        ∀ p : Int, idx ≤ p → p < idx + (cs.length : Int) →
          spanCovers a p → spanCovers b p →
          a.render_slot < b.render_slot := by
  intro cs
  induction cs with
  | nil =>
    intro idx l _ _ _ j k a b _ _ _ p hp1 hp2 _ _
    simp only [List.length_nil, Nat.cast_zero] at hp2
    omega
  | cons c cs ih =>
    intro idx l hsort hord habove j k a b hjk hja hjb p hp1 hp2 hca hcb
    rw [scanSpansAll] at hja hjb
    obtain ⟨postOrd, postAbove⟩ := scanSpansAt_post idx l 0 hsort hord habove
    have hmap := scanSpansAt_map_setSlot0 idx l 0
    have hsort' : (scanSpansAt idx 0 l).Pairwise startLE :=
      pairwise_of_map_setSlot0 hmap (fun _ _ => Iff.rfl) hsort
    obtain ⟨hpreOrd, hpreAbove⟩ := pre_next postOrd postAbove
    have hlen : ((c :: cs).length : Int) = (cs.length : Int) + 1 := by
      simp
    rcases (by omega : p = idx ∨ idx + 1 ≤ p) with rfl | hp
    · -- the overlap position is the one this scan step just processed
      have hja' : (scanSpansAt p 0 l)[j]? = some a :=
        scanSpansAll_getElem?_back cs (p + 1) _ j a hja (by have := hca.1; omega)
      have hjb' : (scanSpansAt p 0 l)[k]? = some b :=
        scanSpansAll_getElem?_back cs (p + 1) _ k b hjb (by have := hcb.1; omega)
      obtain ⟨hj, hEqj⟩ := List.getElem?_eq_some_iff.mp hja'
      obtain ⟨hk, hEqk⟩ := List.getElem?_eq_some_iff.mp hjb'
      have hpair := List.pairwise_iff_getElem.mp postOrd j k hj hk hjk
      rw [hEqj, hEqk] at hpair
      exact hpair hca hcb
    · exact ih (idx + 1) _ hsort' hpreOrd hpreAbove j k a b hjk hja hjb p
        (by omega) (by omega) hca hcb

theorem rleSpan_to_startLE {a b : EditableSpan} (h : rleSpan a b) : startLE a b := by
  have hk := (spanCmp_nonpos_iff a b).mp h
  rcases hk with hk | ⟨hk, _⟩
  · exact le_of_lt hk
  · exact le_of_eq hk

theorem initial_sorted (spans : List EditableSpan) :
    ((sortSpans spans).map setSlot0).Pairwise startLE := by
  have h1 : (sortSpans spans).Pairwise startLE :=
    (sortSpans_pairwise spans).imp fun h => rleSpan_to_startLE h
  exact List.pairwise_map.mpr (h1.imp fun h => h)

theorem initial_pre (spans : List EditableSpan)
    (h0 : ∀ s ∈ spans, 0 ≤ s.start_token) :
    SlotOrdered (FrozenAt 0) ((sortSpans spans).map setSlot0) ∧
      SlotAbove (FrozenAt 0) 0 ((sortSpans spans).map setSlot0) := by
  have hnf : ∀ s ∈ (sortSpans spans).map setSlot0, ¬ FrozenAt 0 s := by
    intro s hs hF
    obtain ⟨t, ht, rfl⟩ := List.mem_map.mp hs
    have ht' : t ∈ spans := (sortSpans_perm spans).mem_iff.mp ht
    have h1 := h0 t ht'
    have h2 : t.start_token ≤ 0 := hF.1.1
    have h3 : t.start_token ≠ 0 := hF.2
    omega
  constructor
  · exact List.pairwise_iff_getElem.mpr fun j k hj hk _ hFa _ =>
      absurd hFa (hnf _ (List.getElem_mem hj))
  · intro a ha hF
    exact absurd hF (hnf a ha)

theorem shape_mem {f l : List EditableSpan}
    (h : f.map setSlot0 = l.map setSlot0) (a : EditableSpan) (ha : a ∈ f) :
    ∃ b ∈ l, setSlot0 a = setSlot0 b := by
  obtain ⟨n, hn⟩ := List.mem_iff_getElem?.mp ha
  have hsh := shape_getElem? h n
  rw [hn] at hsh
  cases hb : l[n]? with
  | none =>
    rw [hb] at hsh
    simp at hsh
  | some b =>
    rw [hb] at hsh
    simp only [Option.map_some'] at hsh
    have hab : setSlot0 a = setSlot0 b := by injection hsh
    exact ⟨b, List.getElem?_mem hb, hab⟩

theorem mem_sortSpans_map_valid {len : Nat} {spans : List EditableSpan}
    (hv : ∀ s ∈ spans, ValidSpan len s) :
    ∀ a ∈ (sortSpans spans).map setSlot0, ValidSpan len a := by
  intro a ha
  obtain ⟨t, ht, rfl⟩ := List.mem_map.mp ha
  have ht' : t ∈ spans := (sortSpans_perm spans).mem_iff.mp ht
  exact hv t ht'

theorem assembleSpans_valid {len : Nat} (chars : List Char) (spans : List EditableSpan)
    (hv : ∀ s ∈ spans, ValidSpan len s) :
    ∀ a ∈ assembleSpans chars spans, ValidSpan len a := by
  intro a ha
  obtain ⟨b, hb, hab⟩ := shape_mem (scanSpansAll_map_setSlot0 chars 0 _) a ha
  obtain ⟨h1, h2, h3⟩ := mem_sortSpans_map_valid hv b hb
  refine ⟨?_, ?_, ?_⟩
  · rw [start_of_shape hab]
    exact h1
  · rw [start_of_shape hab, end_of_shape hab]
    exact h2
  · rw [end_of_shape hab]
    exact h3

/-- Claim C1: for every text and every span list in which each span satisfies
`0 ≤ start < end ≤ length`, after one layout pass any two distinct spans whose
half-open ranges overlap are assigned different `render_slot` values. -/
theorem layout_no_collision (chars : List Char) (spans : List EditableSpan)
    (hv : ∀ s ∈ spans, ValidSpan chars.length s) :
    (assembleSpans chars spans).Pairwise
      (fun a b => Overlaps a b → a.render_slot ≠ b.render_slot) := by
  have h0 : ∀ s ∈ spans, 0 ≤ s.start_token := fun s hs => (hv s hs).1
  obtain ⟨hpreOrd, hpreAbove⟩ := initial_pre spans h0
  have hsorted := initial_sorted spans
  rw [List.pairwise_iff_getElem]
  intro j k hj hk hjk hov
  have hva := assembleSpans_valid chars spans hv _ (List.getElem_mem hj)
  have hvb := assembleSpans_valid chars spans hv _ (List.getElem_mem hk)
  obtain ⟨ha1, ha2, ha3⟩ := hva
  obtain ⟨hb1, hb2, hb3⟩ := hvb
  obtain ⟨ho1, ho2⟩ := hov
  have hsep := scanSpansAll_sep chars 0 ((sortSpans spans).map setSlot0)
    hsorted hpreOrd hpreAbove j k _ _ hjk
    (List.getElem?_eq_getElem hj) (List.getElem?_eq_getElem hk)
  set a := (assembleSpans chars spans)[j] with hadef
  set b := (assembleSpans chars spans)[k] with hbdef
  have hmax := max_choice a.start_token b.start_token
  have hle1 : a.start_token ≤ max a.start_token b.start_token := le_max_left _ _
  have hle2 : b.start_token ≤ max a.start_token b.start_token := le_max_right _ _
  have hlt := hsep (max a.start_token b.start_token)
    (by omega) (by omega) ⟨hle1, by omega⟩ ⟨hle2, by omega⟩
  omega

theorem scanMarkup_sorted :
    ∀ (cs : List Char) (idx : Int) (l : List EditableSpan),
      l.Pairwise startLE →
      SlotOrdered (FrozenAt idx) l →
      SlotAbove (FrozenAt idx) 0 l →
      ∀ m ∈ scanMarkup cs idx l,
        m.entities.Pairwise (fun e f => e.render_slot < f.render_slot) ∧
          ∀ e ∈ m.entities, 0 < e.render_slot := by
  intro cs
  induction cs with
  | nil =>
    intro idx l _ _ _ m hm
    exact absurd hm (List.not_mem_nil m)
  | cons c cs ih =>
    intro idx l hsort hord habove m hm
    obtain ⟨postOrd, postAbove⟩ := scanSpansAt_post idx l 0 hsort hord habove
    rcases List.mem_cons.mp hm with rfl | hm
    · exact scanEntsAt_post idx l 0 hsort hord habove
    · have hmap := scanSpansAt_map_setSlot0 idx l 0
      have hsort' : (scanSpansAt idx 0 l).Pairwise startLE :=
        pairwise_of_map_setSlot0 hmap (fun _ _ => Iff.rfl) hsort
      obtain ⟨hpreOrd, hpreAbove⟩ := pre_next postOrd postAbove
      exact ih (idx + 1) _ hsort' hpreOrd hpreAbove m hm

theorem maxSlot_cons (e : CharEntity) (rest : List CharEntity) :
    maxSlot (e :: rest) = max e.render_slot (maxSlot rest) := rfl

theorem le_maxSlot_aux :
    ∀ (ents : List CharEntity) (c : Nat),
      ents.Pairwise (fun e f => e.render_slot < f.render_slot) →
      (∀ e ∈ ents, c < e.render_slot) →
      c + ents.length ≤ max (maxSlot ents) c := by
  intro ents
  induction ents with
  | nil =>
    intro c _ _
    simp
  | cons e rest ih =>
    intro c hpw habove
    have hhead : ∀ f ∈ rest, e.render_slot < f.render_slot :=
      (List.pairwise_cons.mp hpw).1
    have hrest : rest.Pairwise (fun e f => e.render_slot < f.render_slot) :=
      (List.pairwise_cons.mp hpw).2
    have hc : c < e.render_slot := habove e (List.mem_cons_self e rest)
    have hih := ih e.render_slot hrest hhead
    rw [maxSlot_cons]
    have h1 : max (maxSlot rest) e.render_slot ≤
        max (max e.render_slot (maxSlot rest)) c := by
      rw [max_comm (maxSlot rest) e.render_slot]
      exact le_max_left _ _
    simp only [List.length_cons]
    omega

theorem length_le_maxSlot (ents : List CharEntity)
    (hpw : ents.Pairwise (fun e f => e.render_slot < f.render_slot))
    (hpos : ∀ e ∈ ents, 0 < e.render_slot) :
    ents.length ≤ maxSlot ents := by
  have h := le_maxSlot_aux ents 0 hpw hpos
  have h2 : max (maxSlot ents) 0 = maxSlot ents := Nat.max_zero _
  omega

theorem assembleMarkup_entities (chars : List Char) (spans : List EditableSpan)
    (h0 : ∀ s ∈ spans, 0 ≤ s.start_token) :
    ∀ m ∈ assembleMarkup chars spans,
      m.entities.Pairwise (fun e f => e.render_slot < f.render_slot) ∧
        (∀ e ∈ m.entities, 0 < e.render_slot) ∧
        m.entities.length ≤ maxSlot m.entities := by
  intro m hm
  obtain ⟨hpreOrd, hpreAbove⟩ := initial_pre spans h0
  obtain ⟨h1, h2⟩ :=
    scanMarkup_sorted chars 0 ((sortSpans spans).map setSlot0)
      (initial_sorted spans) hpreOrd hpreAbove m hm
  exact ⟨h1, h2, length_le_maxSlot m.entities h1 h2⟩

theorem map_setSlot0_idem (l : List EditableSpan) :
    (l.map setSlot0).map setSlot0 = l.map setSlot0 := by
  rw [List.map_map]
  rfl

theorem assembleSpans_map_setSlot0 (chars : List Char) (spans : List EditableSpan) :
    (assembleSpans chars spans).map setSlot0 = (sortSpans spans).map setSlot0 := by
  simp only [assembleSpans]
  rw [scanSpansAll_map_setSlot0, map_setSlot0_idem]

theorem assembleSpans_sorted (chars : List Char) (spans : List EditableSpan) :
    (assembleSpans chars spans).Pairwise rleSpan :=
  pairwise_of_map_setSlot0 (assembleSpans_map_setSlot0 chars spans)
    (fun _ _ => Iff.rfl) (sortSpans_pairwise spans)

/-- Witness for claim C1: on the demo input every overlapping pair of spans
receives distinct slots. -/
theorem layout_no_collision_witness :
    (∀ s ∈ dSpans, ValidSpan dChars.length s) ∧
      (assembleSpans dChars dSpans).Pairwise
        (fun a b => Overlaps a b → a.render_slot ≠ b.render_slot) :=
  ⟨by decide, layout_no_collision dChars dSpans (by decide)⟩

/-- Claim C2 (amended): at every position the render slots of the open spans
are strictly increasing in scan order, hence pairwise distinct, and the
maximum slot at a position is at least the number of spans open there; but
because an opening span receives (slot of the last still-open span) + 1
rather than the lowest free slot, the maximum slot can strictly exceed the
maximum number of simultaneously open spans. -/
theorem layout_slot_stacking (chars : List Char) (spans : List EditableSpan)
    (hv : ∀ s ∈ spans, ValidSpan chars.length s) :
    ∀ m ∈ assembleMarkup chars spans,
      m.entities.Pairwise (fun e f => e.render_slot < f.render_slot) ∧
        m.entities.length ≤ maxSlot m.entities := by
  intro m hm
  obtain ⟨h1, _, h3⟩ :=
    assembleMarkup_entities chars spans (fun s hs => (hv s hs).1) m hm
  exact ⟨h1, h3⟩

/-- Claim C2, counterexample: a valid three-span set (spans `[0,2)`, `[1,4)`,
`[2,4)` over four characters) where position 2 has two open spans but uses
slot 3, so the maximum slot at a position is not the number of simultaneously
open spans. -/
theorem layout_minimality_cex :
    (∀ s ∈ dSpans, ValidSpan dChars.length s) ∧
      ¬ (∀ m ∈ assembleMarkup dChars dSpans,
          maxSlot m.entities = m.entities.length) := by
  decide

/-- Witness for the amended claim C2 at the demo input. -/
theorem layout_slot_stacking_witness :
    (∀ s ∈ dSpans, ValidSpan dChars.length s) ∧
      (∀ m ∈ assembleMarkup dChars dSpans,
        m.entities.Pairwise (fun e f => e.render_slot < f.render_slot) ∧
          m.entities.length ≤ maxSlot m.entities) :=
  ⟨by decide, layout_slot_stacking dChars dSpans (by decide)⟩

/-- Claim C8: layout is idempotent — running `assemblePerCharInfo` again on
the exact span-list state the first pass left behind reproduces both the
markup and the slot assignments of the first pass. -/
theorem layout_idempotent (chars : List Char) (spans : List EditableSpan) :
    assembleMarkup chars (assembleSpans chars spans) = assembleMarkup chars spans ∧
      assembleSpans chars (assembleSpans chars spans) = assembleSpans chars spans := by
  have hsort_eq : sortSpans (assembleSpans chars spans) = assembleSpans chars spans :=
    sortSpans_eq_of_pairwise (assembleSpans_sorted chars spans)
  have hmap := assembleSpans_map_setSlot0 chars spans
  constructor
  · show scanMarkup chars 0 ((sortSpans (assembleSpans chars spans)).map setSlot0) =
      assembleMarkup chars spans
    rw [hsort_eq, hmap]
    rfl
  · show scanSpansAll chars 0 ((sortSpans (assembleSpans chars spans)).map setSlot0) =
      assembleSpans chars spans
    rw [hsort_eq, hmap]
    rfl

/-- Claim C3 (amended): the sort orders spans by ascending start, then
descending length, then ascending label; spans equal in all three keys keep
their relative input order (the sort is stable, with no id tie-break), so the
output order on full ties follows the input array order — which is
id-ascending whenever the input is, as it always is in this program. -/
theorem sort_spec (l : List EditableSpan) :
    (sortSpans l).Perm l ∧ (sortSpans l).Pairwise keyLE ∧
      (l.Pairwise tieLE → (sortSpans l).Pairwise tieLE) := by
  refine ⟨sortSpans_perm l, ?_, ?_⟩
  · exact (sortSpans_pairwise l).imp fun h => (spanCmp_nonpos_iff _ _).mp h
  · intro hp
    exact sortSpans_pairwise_of_rel
      (fun u v huv hz => absurd hz (ne_of_lt (spanCmp_pos_of_not_nonpos huv))) hp

/-- Claim C3, counterexample: two spans equal on start, length and label with
ids 2 and 1; the sort leaves them in input order `[2, 1]` (no id fallback),
and the two insertion orders of the same span set sort differently. -/
theorem sort_id_fallback_cex :
    spanCmp dTieHi dTieLo = 0 ∧ dTieLo.span_id < dTieHi.span_id ∧
      (sortSpans [dTieHi, dTieLo]).map (fun s => s.span_id) = [2, 1] ∧
      sortSpans [dTieHi, dTieLo] ≠ sortSpans [dTieLo, dTieHi] := by
  decide

/-- Witness for the amended claim C3: on an id-ascending input the tie rule
is preserved by the sort. -/
theorem sort_spec_witness :
    [dTieLo, dTieHi].Pairwise tieLE ∧
      (sortSpans [dTieLo, dTieHi]).Pairwise tieLE :=
  ⟨by decide, (sort_spec [dTieLo, dTieHi]).2.2 (by decide)⟩

/-- Claim C7 (amended): the vertical offset of the slice for slot `s` is
`top_offset + top_offset_step × (s − 1)`, and the reserved height of a
position is `top_offset + span_label_offset + top_offset_step × (n − 1)`
where `n` is the number of entities at the position — not the maximum slot;
since slots strictly increase, `n ≤ maxSlotAtPosition`, so the real height is
at most the height the original claim states (given a nonnegative step). -/
theorem render_geometry (opts : LayoutOptions) (chars : List Char)
    (spans : List EditableSpan) (hv : ∀ s ∈ spans, ValidSpan chars.length s)
    (hstep : 0 ≤ opts.top_offset_step) :
    ∀ m ∈ assembleMarkup chars spans,
      (∀ e ∈ m.entities, topPos opts e =
          opts.top_offset + opts.top_offset_step * ((e.render_slot : Int) - 1)) ∧
        totalHeight opts m = opts.top_offset + opts.span_label_offset +
          opts.top_offset_step * ((m.entities.length : Int) - 1) ∧
        totalHeight opts m ≤ opts.top_offset + opts.span_label_offset +
          opts.top_offset_step * ((maxSlot m.entities : Int) - 1) := by
  intro m hm
  obtain ⟨_, _, h3⟩ :=
    assembleMarkup_entities chars spans (fun s hs => (hv s hs).1) m hm
  refine ⟨fun e _ => rfl, rfl, ?_⟩
  have hle : (m.entities.length : Int) - 1 ≤ (maxSlot m.entities : Int) - 1 := by
    omega
  have hmul := mul_le_mul_of_nonneg_left hle hstep
  exact add_le_add_left hmul (opts.top_offset + opts.span_label_offset)

/-- Claim C7, counterexample: on the demo layout, position 2 holds two
entities with slots 2 and 3; the code reserves `40 + 20 + 17 × (2 − 1) = 77`
pixels, not the `40 + 20 + 17 × (3 − 1) = 94` the max-slot formula claims. -/
theorem render_height_cex :
    (∀ s ∈ dSpans, ValidSpan dChars.length s) ∧
      ¬ (∀ m ∈ assembleMarkup dChars dSpans,
          totalHeight dOpts m = dOpts.top_offset + dOpts.span_label_offset +
            dOpts.top_offset_step * ((maxSlot m.entities : Int) - 1)) := by
  decide

/-- Witness for the amended claim C7 at the demo input with default options. -/
theorem render_geometry_witness :
    ((∀ s ∈ dSpans, ValidSpan dChars.length s) ∧ 0 ≤ dOpts.top_offset_step) ∧
      ∀ m ∈ assembleMarkup dChars dSpans,
        (∀ e ∈ m.entities, topPos dOpts e =
            dOpts.top_offset + dOpts.top_offset_step * ((e.render_slot : Int) - 1)) ∧
          totalHeight dOpts m = dOpts.top_offset + dOpts.span_label_offset +
            dOpts.top_offset_step * ((m.entities.length : Int) - 1) ∧
          totalHeight dOpts m ≤ dOpts.top_offset + dOpts.span_label_offset +
            dOpts.top_offset_step * ((maxSlot m.entities : Int) - 1) :=
  ⟨⟨by decide, by decide⟩, render_geometry dOpts dChars dSpans (by decide) (by decide)⟩

theorem skipWsLeft_le (text : List Char) (lo : Int) :
    ∀ (n : Nat) (i : Int), skipWsLeft text lo n i ≤ i := by
  intro n
  induction n with
  | zero => intro i; exact le_refl i
  | succ n ih =>
    intro i
    rw [skipWsLeft]
    split_ifs with h
    · have := ih (i - 1)
      omega
    · omega

theorem skipWordLeft_le (text : List Char) (lo : Int) :
    ∀ (n : Nat) (i : Int), skipWordLeft text lo n i ≤ i := by
  intro n
  induction n with
  | zero => intro i; exact le_refl i
  | succ n ih =>
    intro i
    rw [skipWordLeft]
    split_ifs with h
    · have := ih (i - 1)
      omega
    · omega

theorem skipWsRight_ge (text : List Char) :
    ∀ (n : Nat) (i : Int), i ≤ skipWsRight text n i := by
  intro n
  induction n with
  | zero => intro i; exact le_refl i
  | succ n ih =>
    intro i
    rw [skipWsRight]
    split_ifs with h
    · have := ih (i + 1)
      omega
    · omega

theorem skipWordRight_ge (text : List Char) :
    ∀ (n : Nat) (i : Int), i ≤ skipWordRight text n i := by
  intro n
  induction n with
  | zero => intro i; exact le_refl i
  | succ n ih =>
    intro i
    rw [skipWordRight]
    split_ifs with h
    · have := ih (i + 1)
      omega
    · omega

theorem moveStartLeft_nonneg (text : List Char) (s : EditableSpan)
    (h0 : 0 ≤ s.start_token) : 0 ≤ moveStartLeft text s := by
  simp only [moveStartLeft]
  split_ifs with h
  · exact h0
  · exact le_max_left 0 _

theorem moveStartRight_nonneg (text : List Char) (s : EditableSpan)
    (h0 : 0 ≤ s.start_token) : 0 ≤ moveStartRight text s := by
  simp only [moveStartRight]
  split_ifs with h h2
  · exact h0
  · exact le_max_left 0 _
  · have ha := skipWordRight_ge text ((text.length : Int) - s.start_token).toNat s.start_token
    have hb := skipWsRight_ge text
      ((text.length : Int) -
        skipWordRight text ((text.length : Int) - s.start_token).toNat s.start_token).toNat
      (skipWordRight text ((text.length : Int) - s.start_token).toNat s.start_token)
    omega

theorem moveEndLeft_le (text : List Char) (s : EditableSpan)
    (hend : s.end_token ≤ (text.length : Int)) :
    moveEndLeft text s ≤ (text.length : Int) := by
  simp only [moveEndLeft]
  split_ifs with h h2
  · exact hend
  · omega
  · have ha := skipWsLeft_le text s.start_token (s.end_token - 1 - s.start_token).toNat
      (s.end_token - 1)
    have hb := skipWordLeft_le text s.start_token
      ((skipWsLeft text s.start_token (s.end_token - 1 - s.start_token).toNat
          (s.end_token - 1)) - s.start_token).toNat
      (skipWsLeft text s.start_token (s.end_token - 1 - s.start_token).toNat
        (s.end_token - 1))
    omega

theorem moveEndRight_le (text : List Char) (s : EditableSpan)
    (hend : s.end_token ≤ (text.length : Int)) :
    moveEndRight text s ≤ (text.length : Int) := by
  simp only [moveEndRight]
  split_ifs with h h2 h3 h4 <;> omega

theorem valid_adjustStart (text : List Char) (id : Nat) (dir : AdjustDir)
    (spans : List EditableSpan) (hv : ∀ s ∈ spans, ValidSpan text.length s) :
    ∀ s ∈ adjustStart text id dir spans, ValidSpan text.length s := by
  intro s hs
  obtain ⟨t, ht, rfl⟩ := List.mem_map.mp hs
  obtain ⟨h1, h2, h3⟩ := hv t ht
  by_cases hid : t.span_id = id
  · rw [if_pos hid]
    have hn0 : 0 ≤ (match dir with
        | AdjustDir.left => moveStartLeft text t
        | AdjustDir.right => moveStartRight text t) := by
      cases dir with
      | left => exact moveStartLeft_nonneg text t h1
      | right => exact moveStartRight_nonneg text t h1
    refine ⟨?_, ?_, h3⟩
    · show (0 : Int) ≤ (if t.end_token ≤ _ then max 0 (t.end_token - 1) else _)
      split_ifs with hc
      · exact le_max_left 0 _
      · exact hn0
    · show (if t.end_token ≤ _ then max 0 (t.end_token - 1) else _) < t.end_token
      split_ifs with hc
      · have := max_choice (0 : Int) (t.end_token - 1)
        omega
      · omega
  · rw [if_neg hid]
    exact ⟨h1, h2, h3⟩

theorem valid_adjustEnd (text : List Char) (id : Nat) (dir : AdjustDir)
    (spans : List EditableSpan) (hv : ∀ s ∈ spans, ValidSpan text.length s) :
    ∀ s ∈ adjustEnd text id dir spans, ValidSpan text.length s := by
  intro s hs
  obtain ⟨t, ht, rfl⟩ := List.mem_map.mp hs
  obtain ⟨h1, h2, h3⟩ := hv t ht
  by_cases hid : t.span_id = id
  · rw [if_pos hid]
    cases dir with
    | left =>
      have hn0 := moveEndLeft_le text t h3
      refine ⟨h1, ?_, ?_⟩
      · show t.start_token <
          (if moveEndLeft text t ≤ t.start_token then t.start_token + 1
            else moveEndLeft text t)
        split_ifs with hc <;> omega
      · show (if moveEndLeft text t ≤ t.start_token then t.start_token + 1
            else moveEndLeft text t) ≤ (text.length : Int)
        split_ifs with hc
        · omega
        · exact hn0
    | right =>
      have hn0 := moveEndRight_le text t h3
      refine ⟨h1, ?_, ?_⟩
      · show t.start_token <
          (if moveEndRight text t ≤ t.start_token then t.start_token + 1
            else moveEndRight text t)
        split_ifs with hc <;> omega
      · show (if moveEndRight text t ≤ t.start_token then t.start_token + 1
            else moveEndRight text t) ≤ (text.length : Int)
        split_ifs with hc
        · omega
        · exact hn0
  · rw [if_neg hid]
    exact ⟨h1, h2, h3⟩

theorem valid_createFromSelection (len : Nat) (allowed : List String)
    (a b : Int) (fresh : Nat) (spans : List EditableSpan)
    (hv : ∀ s ∈ spans, ValidSpan len s) :
    ∀ s ∈ createFromSelection (len : Int) allowed a b fresh spans,
      ValidSpan len s := by
  intro s hs
  simp only [createFromSelection] at hs
  split_ifs at hs with hneg hrange
  · exact hv s hs
  · exact hv s hs
  · rcases List.mem_append.mp hs with hmem | hmem
    · exact hv s hmem
    · rcases List.mem_singleton.mp hmem with rfl
      push_neg at hneg hrange
      refine ⟨?_, ?_, ?_⟩
      · show (0 : Int) ≤ min a b
        omega
      · show min a b < max a b + 1
        omega
      · show max a b + 1 ≤ (len : Int)
        omega

theorem valid_applyMutation (text : List Char) (allowed : List String)
    (m : Mutation) (spans : List EditableSpan)
    (hv : ∀ s ∈ spans, ValidSpan text.length s) :
    ∀ s ∈ applyMutation text allowed m spans, ValidSpan text.length s := by
  cases m with
  | remove id =>
    intro s hs
    exact hv s (List.mem_of_mem_filter hs)
  | editToggle id =>
    intro s hs
    obtain ⟨t, ht, rfl⟩ := List.mem_map.mp hs
    obtain ⟨h1, h2, h3⟩ := hv t ht
    by_cases hid : t.span_id = id
    · rw [if_pos hid]
      exact ⟨h1, h2, h3⟩
    · rw [if_neg hid]
      exact ⟨h1, h2, h3⟩
  | labelChange id lbl =>
    intro s hs
    obtain ⟨t, ht, rfl⟩ := List.mem_map.mp hs
    obtain ⟨h1, h2, h3⟩ := hv t ht
    by_cases hid : t.span_id = id
    · rw [if_pos hid]
      exact ⟨h1, h2, h3⟩
    · rw [if_neg hid]
      exact ⟨h1, h2, h3⟩
  | approve id =>
    intro s hs
    obtain ⟨t, ht, rfl⟩ := List.mem_map.mp hs
    obtain ⟨h1, h2, h3⟩ := hv t ht
    by_cases hid : t.span_id = id
    · rw [if_pos hid]
      exact ⟨h1, h2, h3⟩
    · rw [if_neg hid]
      exact ⟨h1, h2, h3⟩
  | adjStart id dir => exact valid_adjustStart text id dir spans hv
  | adjEnd id dir => exact valid_adjustEnd text id dir spans hv
  | create a b fresh => exact valid_createFromSelection text.length allowed a b fresh spans hv

/-- Claim C4: starting from a span set in which every span satisfies
`0 ≤ start < end ≤ length`, any finite sequence of mutations (remove, edit
toggle, pending-label change, approve, adjustStart, adjustEnd,
create-from-selection) leaves every surviving span satisfying the same
invariant; boundary adjustments that would invert a span are clamped to a
minimum width of one unit instead of being rejected. -/
theorem mutation_invariant (text : List Char) (allowed : List String)
    (muts : List Mutation) (spans : List EditableSpan)
    (hv : ∀ s ∈ spans, ValidSpan text.length s) :
    ∀ s ∈ applyMutations text allowed muts spans, ValidSpan text.length s := by
  induction muts generalizing spans with
  | nil => exact hv
  | cons m ms ih =>
    rw [applyMutations]
    exact ih (applyMutation text allowed m spans) (valid_applyMutation text allowed m spans hv)

/-- Witness for claim C4: a concrete run (word-stepping both boundaries and a
selection-created span) preserves the invariant. -/
theorem mutation_invariant_witness :
    (∀ s ∈ dSpan0, ValidSpan dText.length s) ∧
      ∀ s ∈ applyMutations dText ["ORG"] dMuts dSpan0, ValidSpan dText.length s :=
  ⟨by decide, mutation_invariant dText ["ORG"] dMuts dSpan0 (by decide)⟩

/-- Claim C5 (amended): load-time materialization filters only by label
membership; a span whose label is accepted is kept verbatim (projected back,
the materialized set is exactly the label-filtered input), regardless of
whether its range is valid. -/
theorem toEditableSpans_label_filter :
    ∀ (allowed : List String) (counter : Nat) (arr : List PlainSpan),
      (toEditableSpans allowed counter arr).map stripSpan =
        arr.filter (fun s => allowed.contains s.label) := by
  intro allowed counter arr
  induction arr generalizing counter with
  | nil => rfl
  | cons s rest ih =>
    by_cases h : allowed.contains s.label
    · rw [toEditableSpans, if_pos h, List.map_cons, ih (counter + 1),
        List.filter_cons]
      have hmem : s.label ∈ allowed := by simpa using h
      simp [hmem, stripSpan]
    · rw [toEditableSpans, if_neg h, ih counter, List.filter_cons]
      have hmem : s.label ∉ allowed := by simpa using h
      simp [hmem]

/-- Claim C5, counterexample: a host span with label `"PERSON"` and inverted
range `[2, 1)` passes the load-time conversion and sits in the authoritative
span state, so invalid-range spans are not dropped. -/
theorem invalid_spans_dropped_cex :
    dBadSpan.end_token ≤ dBadSpan.start_token ∧
      ¬ (∀ s ∈ toEditableSpans ["PERSON"] 1 [dBadSpan],
          s.start_token < s.end_token) := by
  decide

/-- Claim C6: the value emitted to the host is exactly the per-span
projection to start, end and label — the id, editing flags and render slot
are stripped — and a layout pass (which only touches `render_slot`) never
changes the emitted value. -/
theorem emit_strips_overlay (text : List Char) (allowed : List String)
    (muts : List Mutation) (spans : List EditableSpan)
    (chars : List Char) (i : Int) :
    emitValue (applyMutations text allowed muts spans) =
      (applyMutations text allowed muts spans).map
        (fun s => { start_token := s.start_token, end_token := s.end_token,
                    label := s.label : PlainSpan }) ∧
      emitValue (scanSpansAll chars i spans) = emitValue spans := by
  constructor
  · rfl
  · have h := scanSpansAll_map_setSlot0 chars i spans
    have h1 : emitValue (scanSpansAll chars i spans) =
        ((scanSpansAll chars i spans).map setSlot0).map stripSpan := by
      rw [List.map_map]
      rfl
    rw [h1, h, List.map_map]
    rfl

/-- Claim C9: a pending-label change never alters the emitted host value
(the pending label is internal), never alters any span's committed label,
and never alters any span's editing state — in particular, applied to a span
in the Normal state it changes nothing externally observable. -/
theorem label_change_unobservable (spans : List EditableSpan) (id : Nat)
    (lbl : String) :
    emitValue (handleLabelChange id lbl spans) = emitValue spans ∧
      (handleLabelChange id lbl spans).map (fun s => s.label) =
        spans.map (fun s => s.label) ∧
      (handleLabelChange id lbl spans).map (fun s => s.editing) =
        spans.map (fun s => s.editing) := by
  refine ⟨?_, ?_, ?_⟩ <;>
    · simp only [handleLabelChange, emitValue, List.map_map]
      apply List.map_congr_left
      intro a _
      by_cases h : a.span_id = id
      · simp [h, stripSpan]
      · simp [h]

/-- Claim C10: with an empty accepted-labels list (the default when the host
passes none), every incoming span is dropped by the label filter, so the
materialized span set is empty whatever the input spans are. -/
theorem empty_labels_drops_all :
    ∀ (counter : Nat) (arr : List PlainSpan),
      toEditableSpans [] counter arr = [] := by
  intro counter arr
  induction arr generalizing counter with
  | nil => rfl
  | cons s rest ih =>
    rw [toEditableSpans, if_neg (by simp)]
    exact ih counter
